import Mathlib

/-!
# VRP-tabu: the driver (`src/actor/Controller.cpp`) and the graph (`src/lib/Graph.cpp`)

A shallow embedding of `Controller::Init`, `RunVRP`, `RunTabuSearch`, `RunOpts` and of the
`Graph` member functions, followed by the properties of the specification that concern them.

The class `VRP` (TabuSearch, the operators, RouteBalancer, InitSolutions) is not among the
sources; the driver is therefore embedded over an arbitrary implementation of that
interface: a state type `σ` and one state transformer per method.  Every method call the
driver makes is recorded, in order, in a list of events.
-/

namespace VRPTabu

/-! ## The driver -/

/-- Calls made by the driver, in the order of execution.  `Round i` is
`logger("Round " + to_string(i), VERBOSE)` at the top of the loop body of `RunOpts`; the other
log events are the remaining `logger` calls, with their integer payload. -/
inductive Event where
  | LogInitializing
  | LogLessVehicles
  | LogDone
  | LogStartingTabu
  | LogTabuImproved (delta : Int)
  | LogStartingOpt
  | LogTotalImprovement (delta : Int)
  | Round (i : Int)
  | InitSolutions
  | PrintRoutes
  | SaveResult
  | TabuSearch
  | RouteBalancer
  | Opt10
  | Opt01
  | Opt11
  | Opt12
  | Opt21
  | Opt22
  | Opt2
  | Opt3
deriving DecidableEq, Repr

/-- How the execution of a function ended. -/
inductive Exit where
  /-- normal return -/
  | returned
  /-- a C++ exception left the function -/
  | threw (msg : String)
  /-- a variable was read before any assignment to it -/
  | indeterminateRead
  /-- the fuel of the model ran out before the loop condition became false -/
  | outOfFuel
deriving DecidableEq, Repr

/-- Interface of class `VRP` as the driver uses it. -/
structure VRP (σ : Type) where
  InitSolutions : σ → Int × σ
  GetTotalCost : σ → Int
  GetNumberOfCustomers : σ → Int
  TabuSearch : σ → σ
  RouteBalancer : σ → σ
  Opt10 : σ → Bool × σ
  Opt01 : σ → Bool × σ
  Opt11 : σ → Bool × σ
  Opt12 : σ → Bool × σ
  Opt21 : σ → Bool × σ
  Opt22 : σ → Bool × σ
  Opt2 : σ → Bool × σ
  Opt3 : σ → Bool × σ

/-- Result of running a piece of the driver: how it ended, the state of the `VRP` object at
that point, and the calls made. -/
structure Run (σ : Type) where
  exit : Exit
  vrp : σ
  trace : List Event

/-- The statement `if (!result) result = this->vrp->OptXY();` applied to the triple
(result, state, calls so far). -/
def attempt {σ : Type} (op : σ → Bool × σ) (e : Event) (acc : Bool × σ × List Event) :
    Bool × σ × List Event :=
  if !acc.1 then ((op acc.2.1).1, (op acc.2.1).2, acc.2.2 ++ [e]) else acc

/-- Lines 71-81 of `Controller::RunOpts`: the relocation/exchange family. Returns the final
value of `result`, the state and the calls made. -/
def family {σ : Type} (V : VRP σ) (s : σ) : Bool × σ × List Event :=
  attempt V.Opt22 .Opt22
    (attempt V.Opt21 .Opt21
      (attempt V.Opt12 .Opt12
        (attempt V.Opt11 .Opt11
          (attempt V.Opt01 .Opt01
            ((V.Opt10 s).1, (V.Opt10 s).2, [Event.Opt10])))))

/-- Local variables of `Controller::RunOpts` together with the `VRP` object. `result` is
declared without initialiser: `none` until its first assignment. -/
structure LoopState (σ : Type) where
  vrp : σ
  i : Int
  result : Option Bool
  optxx : Bool

/-- Where control goes after one execution of the loop body. -/
inductive Ctl (σ : Type) where
  /-- the body reached `i++` -/
  | next (st : LoopState σ)
  /-- the body executed `break` -/
  | brk (st : LoopState σ)
  /-- `result` was read at `if (!result)` while unassigned -/
  | indeterminate (st : LoopState σ)

/-- Lines 84-92 of `Controller::RunOpts`, once `result` holds the value `r`. -/
def RunOptsTail {σ : Type} (V : VRP σ) (i : Int) (r : Bool) (optxx : Bool) (s : σ)
    (ev : List Event) : Ctl σ × List Event :=
  let optxx1 := if !r then false else optxx
  let o2 := V.Opt2 s
  let optxx2 := if o2.1 then true else optxx1
  let o3 := V.Opt3 o2.2
  let optxx3 := if o3.1 then true else optxx2
  if !r && !optxx3 then
    (.brk ⟨o3.2, i, some r, optxx3⟩, ev ++ [.Opt2, .Opt3])
  else
    (.next ⟨o3.2, i + 1, some r, optxx3⟩, ev ++ [.Opt2, .Opt3])

/-- One execution of the body of the `while` loop of `Controller::RunOpts` (lines 69-92). -/
def RunOptsBody {σ : Type} (V : VRP σ) (st : LoopState σ) : Ctl σ × List Event :=
  if st.optxx then
    let f := family V st.vrp
    RunOptsTail V st.i f.1 st.optxx f.2.1 (Event.Round st.i :: f.2.2)
  else
    match st.result with
    | some r => RunOptsTail V st.i r st.optxx st.vrp [Event.Round st.i]
    | none => (.indeterminate st, [Event.Round st.i])

/-- The loop `while (i < times) { ... }` of `Controller::RunOpts`. -/
def RunOptsLoop {σ : Type} (V : VRP σ) (times : Int) : Nat → LoopState σ → Run σ
  | 0, st => ⟨if st.i < times then .outOfFuel else .returned, st.vrp, []⟩
  | fuel + 1, st =>
    if st.i < times then
      match RunOptsBody V st with
      | (.next st1, ev) =>
        let rest := RunOptsLoop V times fuel st1
        ⟨rest.exit, rest.vrp, ev ++ rest.trace⟩
      | (.brk st1, ev) => ⟨.returned, st1.vrp, ev⟩
      | (.indeterminate st1, ev) => ⟨.indeterminateRead, st1.vrp, ev⟩
    else ⟨.returned, st.vrp, []⟩

/-- State of the locals when the loop of `RunOpts` is first reached: `i = 0`, `result`
unassigned, `optxx = true`. -/
def RunOptsInit {σ : Type} (s : σ) : LoopState σ := ⟨s, 0, none, true⟩

/-- Member function `Controller::RunOpts(times)`. The loop gets `times` units of fuel: `i`
starts at 0 and grows by one per completed iteration. -/
def RunOpts {σ : Type} (V : VRP σ) (times : Int) (s : σ) : Run σ :=
  let r := RunOptsLoop V times times.toNat (RunOptsInit (V.RouteBalancer s))
  match r.exit with
  | .returned =>
    ⟨.returned, V.RouteBalancer r.vrp, Event.RouteBalancer :: r.trace ++ [.RouteBalancer]⟩
  | e => ⟨e, r.vrp, Event.RouteBalancer :: r.trace⟩

/-- The loop `for (int k = 0; k < times; ++k) this->vrp->TabuSearch();`, by the number of
iterations left. -/
def TabuLoop {σ : Type} (V : VRP σ) : Nat → σ → σ × List Event
  | 0, s => (s, [])
  | n + 1, s =>
    let r := TabuLoop V n (V.TabuSearch s)
    (r.1, Event.TabuSearch :: r.2)

/-- Member function `Controller::RunTabuSearch(times)`: the counted loop runs `max(times, 0)`
times. -/
def RunTabuSearch {σ : Type} (V : VRP σ) (times : Int) (s : σ) : σ × List Event :=
  let initCost := V.GetTotalCost s
  let r := TabuLoop V times.toNat s
  (r.1, Event.LogStartingTabu :: r.2 ++ [.LogTabuImproved (initCost - V.GetTotalCost r.1)])

/-- The loop `for (int i = 0; i < customers; i++)` of `Controller::RunVRP`, by the number of
rounds left. -/
def RunVRPLoop {σ : Type} (V : VRP σ) (customers : Int) : Nat → σ → Run σ
  | 0, s => ⟨.returned, s, []⟩
  | n + 1, s =>
    let t := RunTabuSearch V customers s
    let o := RunOpts V customers t.1
    match o.exit with
    | .returned =>
      let rest := RunVRPLoop V customers n o.vrp
      ⟨rest.exit, rest.vrp, t.2 ++ Event.LogStartingOpt :: o.trace ++ rest.trace⟩
    | e => ⟨e, o.vrp, t.2 ++ Event.LogStartingOpt :: o.trace⟩

/-- Member function `Controller::RunVRP()`. -/
def RunVRP {σ : Type} (V : VRP σ) (s : σ) : Run σ :=
  RunVRPLoop V (V.GetNumberOfCustomers s) (V.GetNumberOfCustomers s).toNat s

/-- The fixed order of the relocation/exchange operators. -/
def familyOrder : List Event := [.Opt10, .Opt01, .Opt11, .Opt12, .Opt21, .Opt22]

/-- Outcomes of the six family operators when each is applied to the state left by the one
before it, starting from `s`. -/
def familyOutcomes {σ : Type} (V : VRP σ) (s : σ) : List Bool :=
  let a := V.Opt10 s
  let b := V.Opt01 a.2
  let c := V.Opt11 b.2
  let d := V.Opt12 c.2
  let e := V.Opt21 d.2
  let f := V.Opt22 e.2
  [a.1, b.1, c.1, d.1, e.1, f.1]

/-- Events that are `Round i` log lines, one per executed iteration of the loop of `RunOpts`. -/
def Event.isRound : Event → Bool
  | .Round _ => true
  | _ => false

/-- A scripted implementation of the interface: the state is the number of operator calls
made so far, and an operator reports an improvement when that number is in `hits`. -/
def scripted (hits : List Nat) (customers : Int) (res : Int) : VRP Nat where
  InitSolutions := fun s => (res, s)
  GetTotalCost := fun _ => 0
  GetNumberOfCustomers := fun _ => customers
  TabuSearch := fun s => s
  RouteBalancer := fun s => s
  Opt10 := fun s => (decide (s ∈ hits), s + 1)
  Opt01 := fun s => (decide (s ∈ hits), s + 1)
  Opt11 := fun s => (decide (s ∈ hits), s + 1)
  Opt12 := fun s => (decide (s ∈ hits), s + 1)
  Opt21 := fun s => (decide (s ∈ hits), s + 1)
  Opt22 := fun s => (decide (s ∈ hits), s + 1)
  Opt2 := fun s => (decide (s ∈ hits), s + 1)
  Opt3 := fun s => (decide (s ∈ hits), s + 1)

/-- Whether one iteration of the loop of `RunOpts` started in state `s` brings an improvement:
some family operator returns true, or `Opt2` or `Opt3` does. -/
def improvedIn {σ : Type} (V : VRP σ) (s : σ) : Bool :=
  (familyOutcomes V s).any id || (V.Opt2 (family V s).2.1).1 ||
    (V.Opt3 (V.Opt2 (family V s).2.1).2).1

/-- State of the `VRP` object after one iteration of the loop of `RunOpts` that attempts the
family: the family calls, then `Opt2`, then `Opt3`. -/
def afterIteration {σ : Type} (V : VRP σ) (s : σ) : σ :=
  (V.Opt3 (V.Opt2 (family V s).2.1).2).2

/-- State of the `VRP` object after `k` such iterations. -/
def iterVrp {σ : Type} (V : VRP σ) (s : σ) : Nat → σ
  | 0 => s
  | k + 1 => iterVrp V (afterIteration V s) k

/-- Number of family operators that fail before the first success, in state `s`. -/
def familyStop {σ : Type} (V : VRP σ) (s : σ) : Nat :=
  ((familyOutcomes V s).takeWhile (fun b => !b)).length

/-- The calls of one iteration in which the family stops after its `k+1`-th operator. -/
def iterationBlock (i : Int) (k : Nat) : List Event :=
  Event.Round i :: familyOrder.take (k + 1) ++ [.Opt2, .Opt3]

/-- The locals at the loop head reached after `k` completed iterations of the loop of
`RunOpts(times)` started in `st0`, if the loop gets that far. -/
def loopHead {σ : Type} (V : VRP σ) (times : Int) (st0 : LoopState σ) :
    Nat → Option (LoopState σ)
  | 0 => some st0
  | k + 1 =>
    match loopHead V times st0 k with
    | some st =>
      if st.i < times then
        match (RunOptsBody V st).1 with
        | .next st1 => some st1
        | _ => none
      else none
    | none => none

/-- Relation between two consecutive calls: a `Round` log line is followed by `Opt10`, and
`Opt2` is preceded by an operator of the family. -/
def roundThenFamily (a b : Event) : Prop :=
  (a.isRound = true → b = Event.Opt10) ∧ (b = Event.Opt2 → a ∈ familyOrder)

/-- Events that are calls of one of the eight operators. -/
def Event.isOperator : Event → Bool
  | .Opt10 | .Opt01 | .Opt11 | .Opt12 | .Opt21 | .Opt22 | .Opt2 | .Opt3 => true
  | _ => false

/-- The calls of one outer round of `RunVRP` with `n` customers: the Tabu Search phase, then
the operator phase whose loop makes the calls `mid`. -/
def vrpRound (n : Nat) (d : Int) (mid : List Event) : List Event :=
  Event.LogStartingTabu :: List.replicate n Event.TabuSearch ++
    [Event.LogTabuImproved d, Event.LogStartingOpt] ++
    (Event.RouteBalancer :: mid ++ [Event.RouteBalancer])

/-- State of the `VRP` object after the Tabu Search phase of a round with `n` customers:
`TabuSearch` applied `max(n, 0)` times to `s`. -/
def afterTabu {σ : Type} (V : VRP σ) (n : Int) (s : σ) : σ :=
  Nat.iterate V.TabuSearch n.toNat s

/-- State of the `VRP` object after one outer round of `RunVRP` started in `s`: the Tabu
Search phase, then the operator phase run in the state the Tabu Search phase leaves. -/
def afterRound {σ : Type} (V : VRP σ) (n : Int) (s : σ) : σ :=
  (RunOpts V n (afterTabu V n s)).vrp

/-- The calls of the outer round of `RunVRP` started in state `s`, with `n` customers. -/
def roundTrace {σ : Type} (V : VRP σ) (n : Int) (s : σ) : List Event :=
  Event.LogStartingTabu :: List.replicate n.toNat Event.TabuSearch ++
    [Event.LogTabuImproved (V.GetTotalCost s - V.GetTotalCost (afterTabu V n s)),
      Event.LogStartingOpt] ++
    (RunOpts V n (afterTabu V n s)).trace

/-! ## The graph

`Graph.h`, `Customer.h`, `Edge.h` and `Vertex.h`/`Vertex.cpp` are not among the sources.  The two
maps (`Graph::vertexes` and the edge map of a `Vertex`) are `std::map`s keyed by `Customer`;
a map is embedded as the list of its entries in iteration order, that is, in ascending key
order.  The key comparison `Customer::operator<` is a parameter `less` of every function. -/

/-- Fields of class `Customer`, as `Customer(name, x, y, request, serviceTime)` in
`Utils::InitParameters` and the uses of `.name` in `Graph.cpp` show them. -/
structure Customer where
  name : String
  x : Int
  y : Int
  request : Int
  serviceTime : Int
deriving DecidableEq, Repr

/-- Modelled from the spec: `Customer::operator!=` (`Customer.h` is not among the sources). The
spec identifies a customer by its id: two customers with the same id are the same vertex. -/
def Customer.ne (a b : Customer) : Bool := a.name != b.name

/-- Modelled from the spec: `Customer::operator<` (`Customer.h` is not among the sources), for the
places where a concrete key order is needed. The spec identifies a customer by its id, so
the keys are ordered by name, compared character by character as `std::string` does. -/
def Customer.lessByName (a b : Customer) : Bool := decide (a.name.toList < b.name.toList)

/-- Class `Edge`: the weight read as `edge.second.weight`. -/
structure Edge where
  weight : Int
deriving DecidableEq, Repr

/-- Class `Vertex`: its map of outgoing edges, keyed by destination. -/
structure Vertex where
  edges : List (Customer × Edge)
deriving DecidableEq, Repr

/-- Class `Graph`: its member `vertexes`. -/
structure Graph where
  vertexes : List (Customer × Vertex)
deriving DecidableEq, Repr

/-- Outcome of a call of a member function. -/
inductive Outcome (α : Type) where
  /-- the call returns a value -/
  | returned (a : α)
  /-- the call reports a failure to its caller by an exception -/
  | threw (msg : String)
  /-- the call dereferences a past-the-end iterator: C++ leaves its behaviour undefined -/
  | undefined
deriving DecidableEq, Repr

/-- Two keys are equivalent for a `std::map` when neither is less than the other. -/
def keyEquiv (less : Customer → Customer → Bool) (a b : Customer) : Bool :=
  !less a b && !less b a

/-- Library function `std::map::find(k)`: the entry whose key is equivalent to `k`, `none` for
`end()`. -/
def mapFind {β : Type} (less : Customer → Customer → Bool) (m : List (Customer × β))
    (k : Customer) : Option (Customer × β) :=
  m.find? (fun p => keyEquiv less p.1 k)

/-- Library function `std::map::insert(e)`: adds the entry at its place in key order, unless an
entry with an equivalent key exists, in which case the map is unchanged. -/
def mapInsert {β : Type} (less : Customer → Customer → Bool) :
    List (Customer × β) → Customer × β → List (Customer × β)
  | [], e => [e]
  | p :: rest, e =>
    if less e.1 p.1 then e :: p :: rest
    else if less p.1 e.1 then p :: mapInsert less rest e
    else p :: rest

/-- Adds the entry at its place in key order, or overwrites the value of the entry with an
equivalent key. -/
def mapAssign {β : Type} (less : Customer → Customer → Bool) :
    List (Customer × β) → Customer → β → List (Customer × β)
  | [], k, v => [(k, v)]
  | p :: rest, k, v =>
    if less k p.1 then (k, v) :: p :: rest
    else if less p.1 k then p :: mapAssign less rest k v
    else (p.1, v) :: rest

/-- Library function `std::map::erase(k)`: removes the entry with a key equivalent to `k`, if
any. -/
def mapErase {β : Type} (less : Customer → Customer → Bool) :
    List (Customer × β) → Customer → List (Customer × β)
  | [], _ => []
  | p :: rest, k => if keyEquiv less p.1 k then rest else p :: mapErase less rest k

/-- The update `it->second = f(it->second)` for `it = find(k)`, when `it != end()`. -/
def mapModify {β : Type} (less : Customer → Customer → Bool) (f : β → β) :
    List (Customer × β) → Customer → List (Customer × β)
  | [], _ => []
  | p :: rest, k =>
    if keyEquiv less p.1 k then (p.1, f p.2) :: rest else p :: mapModify less f rest k

/-- Library function `std::multimap<int, Customer>::emplace`: the entry goes after every entry
whose key is not greater than its own (at the end of the range of equal keys). -/
def emplace : List (Int × Customer) → Int × Customer → List (Int × Customer)
  | [], e => [e]
  | p :: rest, e => if e.1 < p.1 then e :: p :: rest else p :: emplace rest e

/-- Modelled from the spec: `Vertex::InsertEdge` (`Vertex.cpp` is not among the sources): adds a
directed edge to `c`, or overwrites the one there is. -/
def Vertex.InsertEdge (less : Customer → Customer → Bool) (v : Vertex) (c : Customer)
    (weight : Int) : Vertex :=
  ⟨mapAssign less v.edges c ⟨weight⟩⟩

/-- Modelled from the spec: `Vertex::RemoveEdge` (`Vertex.cpp` is not among the sources): removes
the edge to `c` if present, no-op otherwise. -/
def Vertex.RemoveEdge (less : Customer → Customer → Bool) (v : Vertex) (c : Customer) :
    Vertex :=
  ⟨mapErase less v.edges c⟩

/-- Member function `Vertex::GetEdges`: the edge map. -/
def Vertex.GetEdges (v : Vertex) : List (Customer × Edge) := v.edges

/-- Member function `Graph::InsertVertex(cust)`: a fresh vertex (no edges) is inserted under the
key `cust`. -/
def Graph.InsertVertex (less : Customer → Customer → Bool) (g : Graph) (cust : Customer) :
    Graph :=
  ⟨mapInsert less g.vertexes (cust, ⟨[]⟩)⟩

/-- Member function `Graph::InsertEdge(node, new_edge, weight)`. -/
def Graph.InsertEdge (less : Customer → Customer → Bool) (g : Graph)
    (node new_edge : Customer) (weight : Int) : Graph :=
  if node.name != new_edge.name && (mapFind less g.vertexes node).isSome then
    ⟨mapModify less (fun v => v.InsertEdge less new_edge weight) g.vertexes node⟩
  else g

/-- Member function `Graph::RemoveEdge(node, edge)`. -/
def Graph.RemoveEdge (less : Customer → Customer → Bool) (g : Graph) (node edge : Customer) :
    Graph :=
  if (mapFind less g.vertexes node).isSome then
    ⟨mapModify less (fun v => v.RemoveEdge less edge) g.vertexes node⟩
  else g

/-- Member function `Graph::sortV0()`. -/
def Graph.sortV0 (less : Customer → Customer → Bool) (g : Graph) :
    Outcome (List (Int × Customer)) :=
  match g.vertexes.head? with
  | none => .undefined
  | some (c, _) =>
    match mapFind less g.vertexes c with
    | none => .undefined
    | some (_, it) =>
      .returned
        (it.GetEdges.foldl (fun v edge => emplace v (edge.2.weight, edge.1)) (emplace [] (0, c)))

/-- Member function `Graph::GetNeighborhood(c)`. -/
def Graph.GetNeighborhood (less : Customer → Customer → Bool) (g : Graph) (c : Customer) :
    Outcome (List (Int × Customer)) :=
  match mapFind less g.vertexes c with
  | none => .undefined
  | some (_, it) =>
    match g.vertexes.head? with
    | none => .undefined
    | some (depot, _) =>
      .returned
        (it.GetEdges.foldl
          (fun mm edge => if edge.1.ne depot then emplace mm (edge.2.weight, edge.1) else mm) [])

/-- Member function `Graph::GetCosts(from, to)`, with `src` for `from` and `dst` for `to`. -/
def Graph.GetCosts (less : Customer → Customer → Bool) (g : Graph) (src dst : Customer) :
    Outcome (Customer × Int) :=
  match mapFind less g.vertexes src with
  | none => .undefined
  | some (_, it) =>
    match mapFind less it.GetEdges dst with
    | none => .undefined
    | some (_, e) => .returned (src, e.weight)

/-! ### Notions used to state the graph's properties -/

/-- A call of one of the three mutators of `Graph`. -/
inductive GraphOp where
  | insertVertex (cust : Customer)
  | insertEdge (node new_edge : Customer) (weight : Int)
  | removeEdge (node edge : Customer)
deriving DecidableEq, Repr

/-- Effect of one mutator call. -/
def Graph.apply (less : Customer → Customer → Bool) (g : Graph) : GraphOp → Graph
  | .insertVertex c => g.InsertVertex less c
  | .insertEdge a b w => g.InsertEdge less a b w
  | .removeEdge a b => g.RemoveEdge less a b

/-- The graph that a sequence of mutator calls builds from the empty graph. -/
def Graph.build (less : Customer → Customer → Bool) (ops : List GraphOp) : Graph :=
  ops.foldl (Graph.apply less) ⟨[]⟩

/-- The customer that `sortV0` and `GetNeighborhood` take for the depot: the key at
`vertexes.begin()`. -/
def Graph.depot (g : Graph) : Option Customer := g.vertexes.head?.map Prod.fst

/-- The entries `(weight, destination)` of the outgoing edges of a vertex, in the iteration
order of its edge map. -/
def Vertex.entries (v : Vertex) : List (Int × Customer) :=
  v.edges.map (fun e => (e.2.weight, e.1))

/-- A customer with the given name, all other fields zero. -/
def cust (name : String) : Customer := ⟨name, 0, 0, 0, 0⟩

/-- The customers passed to `InsertVertex`, in the order of the calls. -/
def insertedCustomers : List GraphOp → List Customer
  | [] => []
  | .insertVertex c :: ops => c :: insertedCustomers ops
  | _ :: ops => insertedCustomers ops

/-! ## Properties of the driver -/

theorem family_events {σ : Type} (V : VRP σ) (s : σ) :
    (family V s).2.2 =
      familyOrder.take (((familyOutcomes V s).takeWhile (fun b => !b)).length + 1) := by
  rcases h1 : V.Opt10 s with ⟨a, s1⟩
  rcases h2 : V.Opt01 s1 with ⟨b, s2⟩
  rcases h3 : V.Opt11 s2 with ⟨c, s3⟩
  rcases h4 : V.Opt12 s3 with ⟨d, s4⟩
  rcases h5 : V.Opt21 s4 with ⟨e, s5⟩
  rcases h6 : V.Opt22 s5 with ⟨f, s6⟩
  cases a <;> cases b <;> cases c <;> cases d <;> cases e <;> cases f <;>
    simp [family, attempt, familyOutcomes, familyOrder, h1, h2, h3, h4, h5, h6]

theorem family_result {σ : Type} (V : VRP σ) (s : σ) :
    (family V s).1 = (familyOutcomes V s).any id := by
  rcases h1 : V.Opt10 s with ⟨a, s1⟩
  rcases h2 : V.Opt01 s1 with ⟨b, s2⟩
  rcases h3 : V.Opt11 s2 with ⟨c, s3⟩
  rcases h4 : V.Opt12 s3 with ⟨d, s4⟩
  rcases h5 : V.Opt21 s4 with ⟨e, s5⟩
  rcases h6 : V.Opt22 s5 with ⟨f, s6⟩
  cases a <;> cases b <;> cases c <;> cases d <;> cases e <;> cases f <;>
    simp [family, attempt, familyOutcomes, familyOrder, h1, h2, h3, h4, h5, h6]

theorem RunOptsBody_of_optxx {σ : Type} (V : VRP σ) (st : LoopState σ) (h : st.optxx = true) :
    RunOptsBody V st =
      if improvedIn V st.vrp then
        (.next ⟨afterIteration V st.vrp, st.i + 1, some (family V st.vrp).1, true⟩,
          iterationBlock st.i (familyStop V st.vrp))
      else
        (.brk ⟨afterIteration V st.vrp, st.i, some false, false⟩,
          iterationBlock st.i (familyStop V st.vrp)) := by
  have hev := family_events V st.vrp
  have hres := family_result V st.vrp
  simp only [RunOptsBody, h, if_true, RunOptsTail, improvedIn, afterIteration, iterationBlock,
    familyStop, ← hev, ← hres]
  cases (family V st.vrp).1 <;> cases (V.Opt2 (family V st.vrp).2.1).1 <;>
    cases (V.Opt3 (V.Opt2 (family V st.vrp).2.1).2).1 <;> simp

theorem RunOptsLoop_succ {σ : Type} (V : VRP σ) (times : Int) (fuel : Nat) (st : LoopState σ)
    (h : st.optxx = true) :
    RunOptsLoop V times (fuel + 1) st =
      if st.i < times then
        if improvedIn V st.vrp then
          ⟨(RunOptsLoop V times fuel
              ⟨afterIteration V st.vrp, st.i + 1, some (family V st.vrp).1, true⟩).exit,
            (RunOptsLoop V times fuel
              ⟨afterIteration V st.vrp, st.i + 1, some (family V st.vrp).1, true⟩).vrp,
            iterationBlock st.i (familyStop V st.vrp) ++
              (RunOptsLoop V times fuel
                ⟨afterIteration V st.vrp, st.i + 1, some (family V st.vrp).1, true⟩).trace⟩
        else ⟨.returned, afterIteration V st.vrp, iterationBlock st.i (familyStop V st.vrp)⟩
      else ⟨.returned, st.vrp, []⟩ := by
  rw [RunOptsLoop, RunOptsBody_of_optxx V st h]
  by_cases hi : st.i < times
  · by_cases him : improvedIn V st.vrp = true
    · simp [hi, him]
    · simp [hi, him]
  · simp [hi]

theorem RunOptsLoop_exit {σ : Type} (V : VRP σ) (times : Int) :
    ∀ (fuel : Nat) (st : LoopState σ), st.optxx = true → (times - st.i).toNat ≤ fuel →
      (RunOptsLoop V times fuel st).exit = .returned := by
  intro fuel
  induction fuel with
  | zero =>
    intro st _ hf
    have : ¬ st.i < times := by omega
    simp [RunOptsLoop, this]
  | succ n ih =>
    intro st h hf
    rw [RunOptsLoop_succ V times n st h]
    by_cases hi : st.i < times
    · by_cases him : improvedIn V st.vrp = true
      · simp only [hi, him, if_true]
        apply ih
        · rfl
        · simp only; omega
      · simp [hi, him]
    · simp [hi]

theorem iterationBlock_rounds (i : Int) (k : Nat) :
    (iterationBlock i k).countP Event.isRound = 1 := by
  rcases k with _ | _ | _ | _ | _ | _ | k <;>
    simp [iterationBlock, familyOrder, Event.isRound, List.countP_cons]

theorem iterationBlock_opt2 (i : Int) (k : Nat) :
    (iterationBlock i k).count Event.Opt2 = 1 := by
  rcases k with _ | _ | _ | _ | _ | _ | k <;>
    simp [iterationBlock, familyOrder, List.count_cons]

theorem iterationBlock_opt3 (i : Int) (k : Nat) :
    (iterationBlock i k).count Event.Opt3 = 1 := by
  rcases k with _ | _ | _ | _ | _ | _ | k <;>
    simp [iterationBlock, familyOrder, List.count_cons]

theorem RunOptsLoop_blocks {σ : Type} (V : VRP σ) (times : Int) :
    ∀ (fuel : Nat) (st : LoopState σ), st.optxx = true →
      ∃ blocks : List (List Event),
        (RunOptsLoop V times fuel st).trace = blocks.flatten ∧
        ∀ b ∈ blocks, ∃ i k, b = iterationBlock i k := by
  intro fuel
  induction fuel with
  | zero =>
    intro st _
    exact ⟨[], by simp [RunOptsLoop], by simp⟩
  | succ n ih =>
    intro st h
    rw [RunOptsLoop_succ V times n st h]
    by_cases hi : st.i < times
    · by_cases him : improvedIn V st.vrp = true
      · obtain ⟨bs, hbs, hall⟩ :=
          ih ⟨afterIteration V st.vrp, st.i + 1, some (family V st.vrp).1, true⟩ rfl
        refine ⟨iterationBlock st.i (familyStop V st.vrp) :: bs, ?_, ?_⟩
        · simp [hi, him, hbs]
        · intro b hb
          rcases List.mem_cons.mp hb with rfl | hb
          · exact ⟨_, _, rfl⟩
          · exact hall b hb
      · refine ⟨[iterationBlock st.i (familyStop V st.vrp)], ?_, ?_⟩
        · simp [hi, him]
        · intro b hb
          rw [List.mem_singleton] at hb
          exact ⟨_, _, hb⟩
    · exact ⟨[], by simp [hi], by simp⟩

theorem blocks_countP (blocks : List (List Event)) (p : Event → Bool)
    (h : ∀ b ∈ blocks, b.countP p = 1) : blocks.flatten.countP p = blocks.length := by
  induction blocks with
  | nil => simp
  | cons b bs ih =>
    rw [List.flatten_cons, List.countP_append, h b (List.mem_cons_self _ _),
      ih (fun c hc => h c (List.mem_cons_of_mem _ hc)), List.length_cons]
    omega

theorem iterVrp_succ {σ : Type} (V : VRP σ) (s : σ) (k : Nat) :
    iterVrp V s (k + 1) = iterVrp V (afterIteration V s) k := rfl

theorem RunOptsLoop_count {σ : Type} (V : VRP σ) (times : Int) :
    ∀ (fuel : Nat) (st : LoopState σ), st.optxx = true → (times - st.i).toNat ≤ fuel →
      (∀ j : Nat, 1 ≤ j →
        (∀ k : Nat, k + 1 < j → improvedIn V (iterVrp V st.vrp k) = true) →
        improvedIn V (iterVrp V st.vrp (j - 1)) = false →
        (RunOptsLoop V times fuel st).trace.countP Event.isRound = min (times - st.i).toNat j) ∧
      ((∀ k : Nat, k < (times - st.i).toNat → improvedIn V (iterVrp V st.vrp k) = true) →
        (RunOptsLoop V times fuel st).trace.countP Event.isRound = (times - st.i).toNat) := by
  intro fuel
  induction fuel with
  | zero =>
    intro st _ hf
    have hi : ¬ st.i < times := by omega
    have hm : (times - st.i).toNat = 0 := by omega
    constructor
    · intro j _ _ _
      simp [RunOptsLoop, hm]
    · intro _
      simp [RunOptsLoop, hm]
  | succ n ih =>
    intro st h hf
    rw [RunOptsLoop_succ V times n st h]
    by_cases hi : st.i < times
    · have hm : (times - (st.i + 1)).toNat + 1 = (times - st.i).toNat := by omega
      by_cases him : improvedIn V st.vrp = true
      · have ih1 := ih ⟨afterIteration V st.vrp, st.i + 1, some (family V st.vrp).1, true⟩ rfl
          (by simp only; omega)
        simp only [hi, him, if_true, List.countP_append, iterationBlock_rounds]
        constructor
        · intro j hj hbefore hat
          have hj2 : 2 ≤ j := by
            by_contra hlt
            have hj1 : j = 1 := by omega
            subst hj1
            simp [iterVrp, him] at hat
          have := ih1.1 (j - 1) (by omega)
            (fun k hk => by
              have := hbefore (k + 1) (by omega)
              rwa [iterVrp_succ] at this)
            (by
              have hjj : j - 1 = (j - 1 - 1) + 1 := by omega
              rw [hjj, iterVrp_succ] at hat
              exact hat)
          rw [this]
          simp only at hm ⊢
          omega
        · intro hall
          have := ih1.2 (fun k hk => by
            have := hall (k + 1) (by simp only at hk; omega)
            rwa [iterVrp_succ] at this)
          rw [this]
          simp only at hm ⊢
          omega
      · simp only [hi, him, if_true, if_false, Bool.false_eq_true, iterationBlock_rounds]
        constructor
        · intro j hj hbefore hat
          have hj1 : j = 1 := by
            by_contra hne
            have := hbefore 0 (by omega)
            simp [iterVrp, him] at this
          subst hj1
          omega
        · intro hall
          have := hall 0 (by omega)
          simp [iterVrp, him] at this
    · have hm : (times - st.i).toNat = 0 := by omega
      constructor
      · intro j _ _ _
        simp [hi, hm]
      · intro _
        simp [hi, hm]

theorem RunOpts_eq {σ : Type} (V : VRP σ) (times : Int) (s : σ) :
    RunOpts V times s =
      ⟨.returned,
        V.RouteBalancer (RunOptsLoop V times times.toNat (RunOptsInit (V.RouteBalancer s))).vrp,
        Event.RouteBalancer ::
          (RunOptsLoop V times times.toNat (RunOptsInit (V.RouteBalancer s))).trace ++
            [.RouteBalancer]⟩ := by
  have h := RunOptsLoop_exit V times times.toNat (RunOptsInit (V.RouteBalancer s)) rfl
    (by simp [RunOptsInit])
  simp only [RunOpts, h]

theorem iterationBlock_chain (i : Int) (k : Nat) :
    List.Chain' roundThenFamily (iterationBlock i k) := by
  rcases k with _ | _ | _ | _ | _ | _ | k <;>
    simp [iterationBlock, familyOrder, roundThenFamily, Event.isRound]

theorem iterationBlock_getLast (i : Int) (k : Nat) :
    (iterationBlock i k).getLast? = some Event.Opt3 := by
  rcases k with _ | _ | _ | _ | _ | _ | k <;> simp [iterationBlock, familyOrder]

theorem iterationBlock_head (i : Int) (k : Nat) :
    (iterationBlock i k).head? = some (Event.Round i) := rfl

theorem blocks_chain (blocks : List (List Event))
    (h : ∀ b ∈ blocks, ∃ i k, b = iterationBlock i k) :
    List.Chain' roundThenFamily (blocks.flatten ++ [Event.RouteBalancer]) ∧
      ∀ y ∈ (blocks.flatten ++ [Event.RouteBalancer]).head?, y ≠ Event.Opt2 := by
  induction blocks with
  | nil => simp
  | cons b bs ih =>
    obtain ⟨i, k, rfl⟩ := h _ (List.mem_cons_self _ _)
    obtain ⟨ih1, ih2⟩ := ih (fun c hc => h c (List.mem_cons_of_mem _ hc))
    constructor
    · rw [List.flatten_cons, List.append_assoc, List.chain'_append]
      refine ⟨iterationBlock_chain i k, ih1, ?_⟩
      intro x hx y hy
      rw [iterationBlock_getLast] at hx
      cases hx
      refine ⟨by simp [Event.isRound], fun hy2 => absurd hy2 (ih2 y hy)⟩
    · intro y hy
      simp [iterationBlock] at hy
      subst hy
      simp

theorem loopHead_optxx {σ : Type} (V : VRP σ) (times : Int) (st0 : LoopState σ)
    (h0 : st0.optxx = true) :
    ∀ (k : Nat) (st : LoopState σ), loopHead V times st0 k = some st → st.optxx = true := by
  intro k
  induction k with
  | zero =>
    intro st h
    simp only [loopHead, Option.some.injEq] at h
    rw [← h]
    exact h0
  | succ n ih =>
    intro st h
    simp only [loopHead] at h
    rcases hp : loopHead V times st0 n with _ | stp
    · simp [hp] at h
    · have hop := ih stp hp
      rw [hp] at h
      simp only [RunOptsBody_of_optxx V stp hop] at h
      by_cases hi : stp.i < times
      · by_cases him : improvedIn V stp.vrp = true
        · simp [hi, him] at h
          rw [← h]
        · simp [hi, him] at h
      · simp [hi] at h

theorem iterationBlock_mem (i : Int) (k : Nat) :
    ∀ e ∈ iterationBlock i k, e.isRound = true ∨ e.isOperator = true := by
  rcases k with _ | _ | _ | _ | _ | _ | k <;>
    simp [iterationBlock, familyOrder, Event.isRound, Event.isOperator]

theorem RunOpts_bracket {σ : Type} (V : VRP σ) (times : Int) (s : σ) :
    ∃ mid : List Event,
      (RunOpts V times s).trace = Event.RouteBalancer :: mid ++ [.RouteBalancer] ∧
      ∀ e ∈ mid, e.isRound = true ∨ e.isOperator = true := by
  obtain ⟨blocks, hb, hall⟩ :=
    RunOptsLoop_blocks V times times.toNat (RunOptsInit (V.RouteBalancer s)) rfl
  refine ⟨blocks.flatten, by rw [RunOpts_eq, hb], ?_⟩
  intro e he
  obtain ⟨b, hbm, heb⟩ := List.mem_flatten.mp he
  obtain ⟨i, k, rfl⟩ := hall b hbm
  exact iterationBlock_mem i k e heb

theorem TabuLoop_trace {σ : Type} (V : VRP σ) :
    ∀ (n : Nat) (s : σ), (TabuLoop V n s).2 = List.replicate n Event.TabuSearch := by
  intro n
  induction n with
  | zero => intro s; rfl
  | succ n ih => intro s; simp [TabuLoop, ih, List.replicate_succ]

theorem vrpRound_tabu (n : Nat) (d : Int) (mid : List Event)
    (h : ∀ e ∈ mid, e.isRound = true ∨ e.isOperator = true) :
    (vrpRound n d mid).countP (fun e => e == Event.TabuSearch) = n := by
  have hmid : mid.countP (fun e => e == Event.TabuSearch) = 0 := by
    rw [List.countP_eq_zero]
    intro e he
    rcases h e he with h1 | h1 <;> cases e <;> simp_all [Event.isRound, Event.isOperator]
  have hrep : (List.replicate n Event.TabuSearch).countP (fun e => e == Event.TabuSearch)
      = n := by
    rw [List.countP_eq_length.mpr]
    · simp
    · intro a ha
      simp [List.eq_of_mem_replicate ha]
  simp [vrpRound, List.countP_cons, List.countP_append, hmid, hrep]

theorem vrpRound_balancer (n : Nat) (d : Int) (mid : List Event)
    (h : ∀ e ∈ mid, e.isRound = true ∨ e.isOperator = true) :
    (vrpRound n d mid).countP (fun e => e == Event.RouteBalancer) = 2 := by
  have hmid : mid.countP (fun e => e == Event.RouteBalancer) = 0 := by
    rw [List.countP_eq_zero]
    intro e he
    rcases h e he with h1 | h1 <;> cases e <;> simp_all [Event.isRound, Event.isOperator]
  have hrep : (List.replicate n Event.TabuSearch).countP (fun e => e == Event.RouteBalancer)
      = 0 := by
    rw [List.countP_eq_zero]
    intro a ha
    simp [List.eq_of_mem_replicate ha]
  simp [vrpRound, List.countP_cons, List.countP_append, hmid, hrep]

theorem rounds_countP (rounds : List (List Event)) (p : Event → Bool) (c : Nat)
    (h : ∀ b ∈ rounds, b.countP p = c) : rounds.flatten.countP p = rounds.length * c := by
  induction rounds with
  | nil => simp
  | cons b bs ih =>
    rw [List.flatten_cons, List.countP_append, h b (List.mem_cons_self _ _),
      ih (fun x hx => h x (List.mem_cons_of_mem _ hx)), List.length_cons]
    ring

theorem RunVRPLoop_rounds {σ : Type} (V : VRP σ) (customers : Int) :
    ∀ (n : Nat) (s : σ),
      (RunVRPLoop V customers n s).exit = .returned ∧
      ∃ rounds : List (List Event),
        (RunVRPLoop V customers n s).trace = rounds.flatten ∧ rounds.length = n ∧
        ∀ b ∈ rounds, ∃ (d : Int) (mid : List Event) (s1 : σ),
          b = vrpRound customers.toNat d mid ∧
          (RunOpts V customers s1).trace = Event.RouteBalancer :: mid ++ [.RouteBalancer] ∧
          ∀ e ∈ mid, e.isRound = true ∨ e.isOperator = true := by
  intro n
  induction n with
  | zero => intro s; exact ⟨rfl, [], rfl, rfl, by simp⟩
  | succ n ih =>
    intro s
    obtain ⟨mid, hmid, hmem⟩ := RunOpts_bracket V customers (RunTabuSearch V customers s).1
    have hexit : (RunOpts V customers (RunTabuSearch V customers s).1).exit = .returned := by
      rw [RunOpts_eq]
    obtain ⟨ihe, rounds, hr, hl, hall⟩ :=
      ih (RunOpts V customers (RunTabuSearch V customers s).1).vrp
    simp only [RunVRPLoop, hexit]
    refine ⟨ihe, vrpRound customers.toNat
      (V.GetTotalCost s - V.GetTotalCost (TabuLoop V customers.toNat s).1) mid :: rounds,
      ?_, by simp [hl], ?_⟩
    · rw [hr, hmid]
      simp [vrpRound, RunTabuSearch, TabuLoop_trace]
    · intro b hb
      rcases List.mem_cons.mp hb with rfl | hb
      · exact ⟨_, mid, _, rfl, hmid, hmem⟩
      · exact hall b hb

theorem TabuLoop_state {σ : Type} (V : VRP σ) :
    ∀ (n : Nat) (s : σ), (TabuLoop V n s).1 = Nat.iterate V.TabuSearch n s := by
  intro n
  induction n with
  | zero => intro s; rfl
  | succ n ih => intro s; simp [TabuLoop, ih, Function.iterate_succ_apply]

theorem RunTabuSearch_eq {σ : Type} (V : VRP σ) (n : Int) (s : σ) :
    RunTabuSearch V n s =
      (afterTabu V n s,
        Event.LogStartingTabu :: List.replicate n.toNat Event.TabuSearch ++
          [Event.LogTabuImproved (V.GetTotalCost s - V.GetTotalCost (afterTabu V n s))]) := by
  simp [RunTabuSearch, TabuLoop_state, TabuLoop_trace, afterTabu]

theorem RunOptsLoop_state {σ : Type} (V : VRP σ) (times : Int) :
    ∀ (fuel : Nat) (st : LoopState σ), st.optxx = true →
      (RunOptsLoop V times fuel st).vrp =
        iterVrp V st.vrp ((RunOptsLoop V times fuel st).trace.countP Event.isRound) := by
  intro fuel
  induction fuel with
  | zero => intro st _; simp [RunOptsLoop, iterVrp]
  | succ n ih =>
    intro st h
    rw [RunOptsLoop_succ V times n st h]
    by_cases hi : st.i < times
    · by_cases him : improvedIn V st.vrp = true
      · have ih1 := ih ⟨afterIteration V st.vrp, st.i + 1, some (family V st.vrp).1, true⟩ rfl
        simp only [hi, him, if_true, List.countP_append, iterationBlock_rounds]
        rw [Nat.add_comm, iterVrp_succ]
        exact ih1
      · simp only [hi, him, if_true, if_false, Bool.false_eq_true, iterationBlock_rounds]
        rfl
    · simp [hi, iterVrp]

theorem RunOpts_state {σ : Type} (V : VRP σ) (times : Int) (s : σ) :
    (RunOpts V times s).vrp =
      V.RouteBalancer (iterVrp V (V.RouteBalancer s)
        ((RunOpts V times s).trace.countP Event.isRound)) := by
  have hs := RunOptsLoop_state V times times.toNat (RunOptsInit (V.RouteBalancer s)) rfl
  have hround : (RunOpts V times s).trace.countP Event.isRound =
      (RunOptsLoop V times times.toNat (RunOptsInit (V.RouteBalancer s))).trace.countP
        Event.isRound := by
    rw [RunOpts_eq]
    simp [List.countP_cons, List.countP_append, Event.isRound]
  rw [hround, RunOpts_eq]
  simp only
  rw [hs]
  rfl

theorem RunVRPLoop_unfold {σ : Type} (V : VRP σ) (n : Int) :
    ∀ (m : Nat) (s : σ),
      (RunVRPLoop V n m s).vrp = Nat.iterate (afterRound V n) m s ∧
      (RunVRPLoop V n m s).trace =
        ((List.range m).map
          (fun i => roundTrace V n (Nat.iterate (afterRound V n) i s))).flatten := by
  intro m
  induction m with
  | zero => intro s; exact ⟨rfl, rfl⟩
  | succ m ih =>
    intro s
    have hexit : (RunOpts V n (RunTabuSearch V n s).1).exit = .returned := by
      rw [RunOpts_eq]
    obtain ⟨ih1, ih2⟩ := ih (afterRound V n s)
    have hst : (RunOpts V n (RunTabuSearch V n s).1).vrp = afterRound V n s := by
      rw [RunTabuSearch_eq]
      rfl
    simp only [RunVRPLoop, hexit]
    rw [hst]
    refine ⟨by rw [ih1, Function.iterate_succ_apply], ?_⟩
    rw [ih2, List.range_succ_eq_map, List.map_cons, List.flatten_cons, List.map_map]
    simp only [RunTabuSearch_eq, roundTrace, Function.iterate_zero, id_eq, List.cons_append,
      List.append_assoc, List.singleton_append]
    rfl

/-! ### The operator phase `RunOpts` -/

/-- C3: `RunOpts(times)` with `times >= 0` returns; if `j` is the first iteration without
improvement (no family operator, nor `Opt2`, nor `Opt3` returns true in it, while every
earlier iteration has an improvement), the loop executes `min(times, j)` iterations; if the
first `times` iterations all improve, it executes `times` iterations. The calls of the loop
split into one block per executed iteration, each holding `Opt2` and `Opt3` exactly once. -/
theorem RunOpts_iterations {σ : Type} (V : VRP σ) (s : σ) (times : Int) (h : 0 ≤ times) :
    (RunOpts V times s).exit = .returned ∧
    (∀ j : Nat, 1 ≤ j →
      (∀ k : Nat, k + 1 < j → improvedIn V (iterVrp V (V.RouteBalancer s) k) = true) →
      improvedIn V (iterVrp V (V.RouteBalancer s) (j - 1)) = false →
      (((RunOpts V times s).trace.countP Event.isRound : Nat) : Int) = min times (j : Int)) ∧
    ((∀ k : Nat, (k : Int) < times →
        improvedIn V (iterVrp V (V.RouteBalancer s) k) = true) →
      (((RunOpts V times s).trace.countP Event.isRound : Nat) : Int) = times) ∧
    (RunOpts V times s).trace.count .Opt2 = (RunOpts V times s).trace.countP Event.isRound ∧
    (RunOpts V times s).trace.count .Opt3 = (RunOpts V times s).trace.countP Event.isRound ∧
    ∃ blocks : List (List Event),
      (RunOpts V times s).trace = Event.RouteBalancer :: blocks.flatten ++ [.RouteBalancer] ∧
      blocks.length = (RunOpts V times s).trace.countP Event.isRound ∧
      ∀ b ∈ blocks, ∃ i k, b = iterationBlock i k := by
  obtain ⟨blocks, hb, hall⟩ :=
    RunOptsLoop_blocks V times times.toNat (RunOptsInit (V.RouteBalancer s)) rfl
  have hcnt := RunOptsLoop_count V times times.toNat (RunOptsInit (V.RouteBalancer s)) rfl
    (by simp [RunOptsInit])
  have hround : (RunOpts V times s).trace.countP Event.isRound =
      (RunOptsLoop V times times.toNat (RunOptsInit (V.RouteBalancer s))).trace.countP
        Event.isRound := by
    rw [RunOpts_eq]
    simp [List.countP_cons, List.countP_append, Event.isRound]
  have hlen : blocks.flatten.countP Event.isRound = blocks.length :=
    blocks_countP blocks _ (fun b hb2 => by
      obtain ⟨i, k, rfl⟩ := hall b hb2
      exact iterationBlock_rounds i k)
  have h2 : blocks.flatten.countP (fun e => e == Event.Opt2) = blocks.length :=
    blocks_countP blocks _ (fun b hb2 => by
      obtain ⟨i, k, rfl⟩ := hall b hb2
      exact iterationBlock_opt2 i k)
  have h3 : blocks.flatten.countP (fun e => e == Event.Opt3) = blocks.length :=
    blocks_countP blocks _ (fun b hb2 => by
      obtain ⟨i, k, rfl⟩ := hall b hb2
      exact iterationBlock_opt3 i k)
  have hz : (times - (RunOptsInit (V.RouteBalancer s)).i).toNat = times.toNat := by
    simp [RunOptsInit]
  have hv : (RunOptsInit (V.RouteBalancer s)).vrp = V.RouteBalancer s := rfl
  rw [hz, hv] at hcnt
  refine ⟨by rw [RunOpts_eq], ?_, ?_, ?_, ?_, blocks, ?_, ?_, hall⟩
  · intro j hj hbefore hat
    rw [hround, hcnt.1 j hj hbefore hat]
    omega
  · intro hall2
    rw [hround, hcnt.2 (fun k hk => hall2 k (by omega))]
    omega
  · rw [hround, hb, hlen, RunOpts_eq]
    simp only [hb, List.count, List.countP_cons, List.countP_append, h2]
    simp
  · rw [hround, hb, hlen, RunOpts_eq]
    simp only [hb, List.count, List.countP_cons, List.countP_append, h3]
    simp
  · rw [RunOpts_eq, hb]
  · rw [hround, hb, hlen]

theorem RunOpts_iterations_witness :
    (0 : Int) ≤ 5 ∧
      (((RunOpts (scripted [1, 9] 5 0) 5 0).trace.countP Event.isRound : Nat) : Int) =
        min 5 ((3 : Nat) : Int) :=
  ⟨by decide,
    (RunOpts_iterations (scripted [1, 9] 5 0) 0 5 (by decide)).2.1 3 (by decide)
      (fun k hk => by
        have hk2 : k = 0 ∨ k = 1 := by omega
        rcases hk2 with rfl | rfl <;> decide)
      (by decide)⟩

/-- C10: at every loop head that `RunOpts(times)` reaches, `optxx` is true, so the body that
starts there attempts the family and never reads `result` unassigned; `RunOpts` returns
normally; and in its calls every `Round` log line is immediately followed by `Opt10`, and
`Opt2` is always immediately preceded by a family operator. -/
theorem RunOpts_optxx_invariant {σ : Type} (V : VRP σ) (times : Int) (s : σ) :
    (∀ (k : Nat) (st : LoopState σ),
      loopHead V times (RunOptsInit (V.RouteBalancer s)) k = some st →
        st.optxx = true ∧
        (RunOptsBody V st).2 = Event.Round st.i :: (family V st.vrp).2.2 ++ [.Opt2, .Opt3] ∧
        ∀ st1 : LoopState σ, (RunOptsBody V st).1 ≠ Ctl.indeterminate st1) ∧
    (RunOpts V times s).exit = .returned ∧
    List.Chain' roundThenFamily (RunOpts V times s).trace := by
  refine ⟨?_, by rw [RunOpts_eq], ?_⟩
  · intro k st hk
    have hop := loopHead_optxx V times (RunOptsInit (V.RouteBalancer s)) rfl k st hk
    refine ⟨hop, ?_, ?_⟩
    · rw [RunOptsBody_of_optxx V st hop, family_events]
      by_cases him : improvedIn V st.vrp = true
      · simp [him, iterationBlock, familyStop]
      · simp [him, iterationBlock, familyStop]
    · intro st1
      rw [RunOptsBody_of_optxx V st hop]
      by_cases him : improvedIn V st.vrp = true
      · simp [him]
      · simp [him]
  · obtain ⟨blocks, hb, hall⟩ :=
      RunOptsLoop_blocks V times times.toNat (RunOptsInit (V.RouteBalancer s)) rfl
    rw [RunOpts_eq, hb]
    obtain ⟨hc, hh⟩ := blocks_chain blocks hall
    have : Event.RouteBalancer :: blocks.flatten ++ [Event.RouteBalancer] =
        [Event.RouteBalancer] ++ (blocks.flatten ++ [Event.RouteBalancer]) := by simp
    simp only [this]
    rw [List.chain'_append]
    refine ⟨by simp, hc, ?_⟩
    intro x hx y hy
    simp at hx
    subst hx
    exact ⟨by simp [Event.isRound], fun hy2 => absurd hy2 (hh y hy)⟩

/-! ### The outer loop `RunVRP` and `Init` -/

/-- C4: with `n = GetNumberOfCustomers()`, `RunVRP` returns after exactly `max(n, 0)` outer
rounds, and its calls are those of the rounds one after the other, round `i` starting in the
state that `i` rounds leave. The Tabu Search phase of a round applies `TabuSearch` exactly `n`
times to the state and logs `n` TabuSearch calls; the operator phase `RunOpts(n)` then runs
in the state the Tabu Search phase leaves. Every operator phase applies `RouteBalancer`
exactly twice, once before the first operator call and once after the last: its calls are a
`RouteBalancer` call, the calls of the inner loop (operators and `Round` log lines only) and
a second `RouteBalancer` call, and its final state is `RouteBalancer` applied to the state
the executed iterations leave from `RouteBalancer` of the initial state. In total there are
`n * n` TabuSearch calls and `2 * n` RouteBalancer calls, and no call at all when `n <= 0`. -/
theorem RunVRP_calls {σ : Type} (V : VRP σ) (s : σ) :
    (RunVRP V s).exit = .returned ∧
    (RunVRP V s).vrp =
      Nat.iterate (afterRound V (V.GetNumberOfCustomers s))
        (V.GetNumberOfCustomers s).toNat s ∧
    (RunVRP V s).trace =
      ((List.range (V.GetNumberOfCustomers s).toNat).map
        (fun i => roundTrace V (V.GetNumberOfCustomers s)
          (Nat.iterate (afterRound V (V.GetNumberOfCustomers s)) i s))).flatten ∧
    (∀ (times : Int) (s1 : σ),
      (RunTabuSearch V times s1).1 = Nat.iterate V.TabuSearch times.toNat s1 ∧
      (RunTabuSearch V times s1).2 =
        Event.LogStartingTabu :: List.replicate times.toNat Event.TabuSearch ++
          [Event.LogTabuImproved (V.GetTotalCost s1 -
            V.GetTotalCost (Nat.iterate V.TabuSearch times.toNat s1))]) ∧
    (∀ (times : Int) (s1 : σ), ∃ mid : List Event,
      (RunOpts V times s1).trace = Event.RouteBalancer :: mid ++ [.RouteBalancer] ∧
      (∀ e ∈ mid, e.isRound = true ∨ e.isOperator = true) ∧
      (RunOpts V times s1).vrp =
        V.RouteBalancer (iterVrp V (V.RouteBalancer s1) (mid.countP Event.isRound))) ∧
    (RunVRP V s).trace.count .TabuSearch =
      (V.GetNumberOfCustomers s).toNat * (V.GetNumberOfCustomers s).toNat ∧
    (RunVRP V s).trace.count .RouteBalancer = 2 * (V.GetNumberOfCustomers s).toNat ∧
    (V.GetNumberOfCustomers s ≤ 0 → (RunVRP V s).trace = []) := by
  obtain ⟨hexit, rounds, hr, hl, hall⟩ :=
    RunVRPLoop_rounds V (V.GetNumberOfCustomers s) (V.GetNumberOfCustomers s).toNat s
  obtain ⟨hvrp, htrace⟩ :=
    RunVRPLoop_unfold V (V.GetNumberOfCustomers s) (V.GetNumberOfCustomers s).toNat s
  refine ⟨hexit, hvrp, htrace, ?_, ?_, ?_, ?_, ?_⟩
  · intro times s1
    rw [RunTabuSearch_eq]
    exact ⟨rfl, rfl⟩
  · intro times s1
    obtain ⟨mid, hmid, hmem⟩ := RunOpts_bracket V times s1
    refine ⟨mid, hmid, hmem, ?_⟩
    have hc : (RunOpts V times s1).trace.countP Event.isRound = mid.countP Event.isRound := by
      rw [hmid]
      simp [List.countP_cons, List.countP_append, Event.isRound]
    rw [← hc]
    exact RunOpts_state V times s1
  · have := rounds_countP rounds (fun e => e == Event.TabuSearch)
      (V.GetNumberOfCustomers s).toNat (fun b hb => by
        obtain ⟨d, mid, _, rfl, _, hm⟩ := hall b hb
        exact vrpRound_tabu _ d mid hm)
    rw [hl] at this
    simpa [RunVRP, List.count, hr] using this
  · have := rounds_countP rounds (fun e => e == Event.RouteBalancer) 2 (fun b hb => by
        obtain ⟨d, mid, _, rfl, _, hm⟩ := hall b hb
        exact vrpRound_balancer _ d mid hm)
    rw [hl] at this
    rw [Nat.mul_comm]
    simpa [RunVRP, List.count, hr] using this
  · intro hn
    have h0 : (V.GetNumberOfCustomers s).toNat = 0 := by omega
    simp [RunVRP, h0, RunVRPLoop]

theorem emplace_perm (mm : List (Int × Customer)) (e : Int × Customer) :
    (emplace mm e).Perm (mm ++ [e]) := by
  induction mm with
  | nil => simp [emplace]
  | cons p rest ih =>
    simp only [emplace]
    split
    · exact (List.perm_append_comm : ([e] ++ (p :: rest)).Perm ((p :: rest) ++ [e]))
    · simpa using ih

theorem emplace_sorted (mm : List (Int × Customer)) (e : Int × Customer)
    (h : mm.Pairwise (fun p q => p.1 ≤ q.1)) :
    (emplace mm e).Pairwise (fun p q => p.1 ≤ q.1) := by
  induction mm with
  | nil => simp [emplace]
  | cons p rest ih =>
    rw [List.pairwise_cons] at h
    simp only [emplace]
    split
    · rename_i hlt
      refine List.pairwise_cons.mpr ⟨?_, List.pairwise_cons.mpr h⟩
      intro q hq
      rcases List.mem_cons.mp hq with rfl | hq
      · omega
      · have := h.1 q hq
        omega
    · rename_i hge
      refine List.pairwise_cons.mpr ⟨?_, ih h.2⟩
      intro q hq
      rcases (List.mem_append.mp ((emplace_perm rest e).subset hq)) with hq | hq
      · exact h.1 q hq
      · simp at hq
        subst hq
        omega

theorem emplace_filter (mm : List (Int × Customer)) (e : Int × Customer) (w : Int)
    (h : mm.Pairwise (fun p q => p.1 ≤ q.1)) :
    (emplace mm e).filter (fun p => decide (p.1 = w)) =
      mm.filter (fun p => decide (p.1 = w)) ++ [e].filter (fun p => decide (p.1 = w)) := by
  induction mm with
  | nil => simp [emplace]
  | cons p rest ih =>
    rw [List.pairwise_cons] at h
    simp only [emplace]
    split
    · rename_i hlt
      by_cases hw : e.1 = w
      · have hnone : (p :: rest).filter (fun q => decide (q.1 = w)) = [] := by
          rw [List.filter_eq_nil_iff]
          intro q hq
          rcases List.mem_cons.mp hq with rfl | hq
          · simp; omega
          · have := h.1 q hq
            simp; omega
        rw [hnone]
        simp [List.filter_cons, hw]
        have hp : ¬ p.1 = w := by omega
        simp [hp]
        rw [List.filter_eq_nil_iff] at hnone
        intro a b hab
        have := hnone (a, b) (List.mem_cons_of_mem _ hab)
        simpa using this
      · simp [List.filter_cons, hw]
    · rw [List.filter_cons, List.filter_cons, ih h.2]
      split <;> simp

theorem emplace_head (mm : List (Int × Customer)) (e e0 : Int × Customer)
    (h : mm.head? = some e0) (hle : e0.1 ≤ e.1) : (emplace mm e).head? = some e0 := by
  cases mm with
  | nil => simp at h
  | cons p rest =>
    simp only [List.head?_cons, Option.some.injEq] at h
    subst h
    have : ¬ e.1 < p.1 := by omega
    simp [emplace, this]

theorem foldl_emplace_sorted (l : List (Int × Customer)) :
    ∀ init : List (Int × Customer), init.Pairwise (fun p q => p.1 ≤ q.1) →
      (l.foldl emplace init).Pairwise (fun p q => p.1 ≤ q.1) := by
  induction l with
  | nil => intro init h; exact h
  | cons e rest ih => intro init h; exact ih _ (emplace_sorted init e h)

theorem foldl_emplace_perm (l : List (Int × Customer)) :
    ∀ init : List (Int × Customer), (l.foldl emplace init).Perm (init ++ l) := by
  induction l with
  | nil => intro init; simp
  | cons e rest ih =>
    intro init
    refine (ih (emplace init e)).trans ?_
    have := (emplace_perm init e).append_right rest
    simpa using this

theorem foldl_emplace_filter (l : List (Int × Customer)) (w : Int) :
    ∀ init : List (Int × Customer), init.Pairwise (fun p q => p.1 ≤ q.1) →
      (l.foldl emplace init).filter (fun p => decide (p.1 = w)) =
        init.filter (fun p => decide (p.1 = w)) ++ l.filter (fun p => decide (p.1 = w)) := by
  induction l with
  | nil => intro init _; simp
  | cons e rest ih =>
    intro init h
    rw [List.foldl_cons, ih _ (emplace_sorted init e h), emplace_filter init e w h,
      List.append_assoc, ← List.filter_append]
    rfl

theorem foldl_emplace_head (l : List (Int × Customer)) (e0 : Int × Customer)
    (hl : ∀ e ∈ l, e0.1 ≤ e.1) :
    ∀ init : List (Int × Customer), init.head? = some e0 →
      (l.foldl emplace init).head? = some e0 := by
  induction l with
  | nil => intro init h; exact h
  | cons e rest ih =>
    intro init h
    exact ih (fun x hx => hl x (List.mem_cons_of_mem _ hx)) _
      (emplace_head init e e0 h (hl e (List.mem_cons_self _ _)))

theorem foldl_emplace_entries (edges : List (Customer × Edge)) (init : List (Int × Customer)) :
    edges.foldl (fun v edge => emplace v (edge.2.weight, edge.1)) init =
      (edges.map (fun e => (e.2.weight, e.1))).foldl emplace init := by
  rw [List.foldl_map]

theorem foldl_emplace_entries_filter (edges : List (Customer × Edge)) (depot : Customer) :
    ∀ init : List (Int × Customer),
      edges.foldl
        (fun mm edge => if edge.1.ne depot then emplace mm (edge.2.weight, edge.1) else mm)
        init =
      ((edges.filter (fun e => e.1.ne depot)).map (fun e => (e.2.weight, e.1))).foldl
        emplace init := by
  induction edges with
  | nil => intro init; rfl
  | cons e rest ih =>
    intro init
    rw [List.foldl_cons, ih, List.filter_cons]
    by_cases hne : e.1.ne depot = true
    · simp [hne]
    · simp [hne]

theorem mapFind_head {β : Type} (less : Customer → Customer → Bool)
    (hirr : ∀ a, less a a = false) (p : Customer × β) (rest : List (Customer × β)) :
    mapFind less (p :: rest) p.1 = some p := by
  simp [mapFind, List.find?_cons, keyEquiv, hirr]

theorem mem_mapInsert {β : Type} (less : Customer → Customer → Bool) (e : Customer × β) :
    ∀ (m : List (Customer × β)) (p : Customer × β), p ∈ mapInsert less m e → p ∈ m ∨ p = e := by
  intro m
  induction m with
  | nil => intro p hp; simpa [mapInsert] using hp
  | cons q rest ih =>
    intro p hp
    simp only [mapInsert] at hp
    split at hp
    · rcases List.mem_cons.mp hp with rfl | hp
      · exact Or.inr rfl
      · exact Or.inl hp
    · split at hp
      · rcases List.mem_cons.mp hp with rfl | hp
        · exact Or.inl (List.mem_cons_self _ _)
        · rcases ih p hp with h | h
          · exact Or.inl (List.mem_cons_of_mem _ h)
          · exact Or.inr h
      · exact Or.inl hp

theorem mem_mapModify {β : Type} (less : Customer → Customer → Bool) (f : β → β)
    (k : Customer) :
    ∀ (m : List (Customer × β)) (p : Customer × β), p ∈ mapModify less f m k →
      p ∈ m ∨ ∃ q ∈ m, keyEquiv less q.1 k = true ∧ p = (q.1, f q.2) := by
  intro m
  induction m with
  | nil => intro p hp; simp [mapModify] at hp
  | cons q rest ih =>
    intro p hp
    simp only [mapModify] at hp
    split at hp
    · rename_i heq
      rcases List.mem_cons.mp hp with rfl | hp
      · exact Or.inr ⟨q, List.mem_cons_self _ _, heq, rfl⟩
      · exact Or.inl (List.mem_cons_of_mem _ hp)
    · rcases List.mem_cons.mp hp with rfl | hp
      · exact Or.inl (List.mem_cons_self _ _)
      · rcases ih p hp with h | ⟨q2, hq2, heq, rfl⟩
        · exact Or.inl (List.mem_cons_of_mem _ h)
        · exact Or.inr ⟨q2, List.mem_cons_of_mem _ hq2, heq, rfl⟩

theorem mem_mapAssign {β : Type} (less : Customer → Customer → Bool) (k : Customer) (v : β) :
    ∀ (m : List (Customer × β)) (x : Customer × β), x ∈ mapAssign less m k v →
      x.1 = k ∨ ∃ q ∈ m, x.1 = q.1 := by
  intro m
  induction m with
  | nil => intro x hx; simp [mapAssign] at hx; exact Or.inl (by rw [hx])
  | cons q rest ih =>
    intro x hx
    simp only [mapAssign] at hx
    split at hx
    · rcases List.mem_cons.mp hx with rfl | hx
      · exact Or.inl rfl
      · exact Or.inr ⟨x, hx, rfl⟩
    · split at hx
      · rcases List.mem_cons.mp hx with rfl | hx
        · exact Or.inr ⟨x, List.mem_cons_self _ _, rfl⟩
        · rcases ih x hx with h | ⟨q2, hq2, h⟩
          · exact Or.inl h
          · exact Or.inr ⟨q2, List.mem_cons_of_mem _ hq2, h⟩
      · rcases List.mem_cons.mp hx with rfl | hx
        · exact Or.inr ⟨q, List.mem_cons_self _ _, rfl⟩
        · exact Or.inr ⟨x, List.mem_cons_of_mem _ hx, rfl⟩

theorem mapErase_sublist {β : Type} (less : Customer → Customer → Bool) (k : Customer) :
    ∀ m : List (Customer × β), (mapErase less m k).Sublist m := by
  intro m
  induction m with
  | nil => simp [mapErase]
  | cons q rest ih =>
    simp only [mapErase]
    split
    · exact List.sublist_cons_self _ _
    · exact ih.cons₂ _

theorem mapAssign_sorted {β : Type} (less : Customer → Customer → Bool)
    (htrans : ∀ a b c, less a b = true → less b c = true → less a c = true)
    (k : Customer) (v : β) :
    ∀ m : List (Customer × β), m.Pairwise (fun a b => less a.1 b.1 = true) →
      (mapAssign less m k v).Pairwise (fun a b => less a.1 b.1 = true) := by
  intro m
  induction m with
  | nil => intro _; simp [mapAssign]
  | cons q rest ih =>
    intro h
    rw [List.pairwise_cons] at h
    simp only [mapAssign]
    split
    · rename_i hlt
      refine List.pairwise_cons.mpr ⟨?_, List.pairwise_cons.mpr h⟩
      intro y hy
      rcases List.mem_cons.mp hy with rfl | hy
      · exact hlt
      · exact htrans _ _ _ hlt (h.1 y hy)
    · split
      · rename_i hlt
        refine List.pairwise_cons.mpr ⟨?_, ih h.2⟩
        intro y hy
        rcases mem_mapAssign less k v rest y hy with hk | ⟨q2, hq2, hk⟩
        · rw [hk]; exact hlt
        · rw [hk]; exact h.1 q2 hq2
      · exact List.pairwise_cons.mpr ⟨fun y hy => h.1 y hy, h.2⟩

theorem build_snoc (less : Customer → Customer → Bool) (ops : List GraphOp) (op : GraphOp) :
    Graph.build less (ops ++ [op]) = (Graph.build less ops).apply less op := by
  simp [Graph.build, List.foldl_append]

theorem build_invariant (less : Customer → Customer → Bool) (P : Customer → Vertex → Prop)
    (hnew : ∀ c, P c ⟨[]⟩)
    (hins : ∀ k v node new_edge w, P k v → keyEquiv less k node = true →
      (node.name != new_edge.name) = true → P k (v.InsertEdge less new_edge w))
    (hrem : ∀ k v e, P k v → P k (v.RemoveEdge less e)) :
    ∀ ops : List GraphOp, ∀ p ∈ (Graph.build less ops).vertexes, P p.1 p.2 := by
  intro ops
  induction ops using List.reverseRecOn with
  | nil => intro p hp; simp [Graph.build] at hp
  | append_singleton ops op ih =>
    intro p hp
    rw [build_snoc] at hp
    cases op with
    | insertVertex c =>
      simp only [Graph.apply, Graph.InsertVertex] at hp
      rcases mem_mapInsert less _ _ p hp with h | rfl
      · exact ih p h
      · exact hnew c
    | insertEdge a b w =>
      simp only [Graph.apply, Graph.InsertEdge] at hp
      split at hp
      · rename_i hc
        rw [Bool.and_eq_true] at hc
        rcases mem_mapModify less _ a _ p hp with h | ⟨q, hq, heq, rfl⟩
        · exact ih p h
        · exact hins q.1 q.2 a b w (ih q hq) heq hc.1
      · exact ih p hp
    | removeEdge a b =>
      simp only [Graph.apply, Graph.RemoveEdge] at hp
      split at hp
      · rcases mem_mapModify less _ a _ p hp with h | ⟨q, hq, _, rfl⟩
        · exact ih p h
        · exact hrem q.1 q.2 b (ih q hq)
      · exact ih p hp

theorem build_edges_sorted (less : Customer → Customer → Bool)
    (htrans : ∀ a b c, less a b = true → less b c = true → less a c = true)
    (ops : List GraphOp) :
    ∀ p ∈ (Graph.build less ops).vertexes,
      p.2.edges.Pairwise (fun a b => less a.1 b.1 = true) := by
  apply build_invariant less
    (fun _ v => v.edges.Pairwise (fun (a b : Customer × Edge) => less a.1 b.1 = true))
  · intro c
    exact List.Pairwise.nil
  · intro k v node new_edge w hv _ _
    exact mapAssign_sorted less htrans new_edge ⟨w⟩ v.edges hv
  · intro k v e hv
    exact List.Pairwise.sublist (mapErase_sublist less e v.edges) hv

theorem build_no_self_edge (less : Customer → Customer → Bool)
    (hname : ∀ a b, less a b = false → less b a = false → a.name = b.name)
    (ops : List GraphOp) :
    ∀ p ∈ (Graph.build less ops).vertexes, ∀ e ∈ p.2.edges, e.1.name ≠ p.1.name :=
  build_invariant less (fun k v => ∀ e ∈ v.edges, e.1.name ≠ k.name)
    (fun _ e he => by simp at he)
    (fun k v node new_edge w hv heq hne e he => by
      have hk : k.name = node.name := by
        simp only [keyEquiv, Bool.and_eq_true, Bool.not_eq_true'] at heq
        exact hname k node heq.1 heq.2
      have he2 : e ∈ mapAssign less v.edges new_edge ⟨w⟩ := he
      rcases mem_mapAssign less new_edge ⟨w⟩ v.edges e he2 with h | ⟨q, hq, h⟩
      · rw [h, hk]
        intro hcontra
        simp [hcontra] at hne
      · rw [h]
        exact hv q hq)
    (fun k v e hv x hx => hv x ((mapErase_sublist less e v.edges).subset hx)) ops

theorem lessByName_irrefl (a : Customer) : Customer.lessByName a a = false := by
  simp [Customer.lessByName]

theorem lessByName_trans (a b c : Customer) (h1 : Customer.lessByName a b = true)
    (h2 : Customer.lessByName b c = true) : Customer.lessByName a c = true := by
  simp only [Customer.lessByName, decide_eq_true_eq, ← String.lt_iff_toList_lt] at *
  exact lt_trans h1 h2

theorem lessByName_equiv (a b : Customer) (h1 : Customer.lessByName a b = false)
    (h2 : Customer.lessByName b a = false) : a.name = b.name := by
  simp only [Customer.lessByName, decide_eq_false_iff_not, ← String.lt_iff_toList_lt] at h1 h2
  exact le_antisymm (not_lt.mp h2) (not_lt.mp h1)

theorem depot_of_less (less : Customer → Customer → Bool) (a b : Customer)
    (h : less a b = true) :
    (Graph.build less [.insertVertex b, .insertVertex a]).depot = some a := by
  simp [Graph.build, Graph.apply, Graph.InsertVertex, mapInsert, h, Graph.depot]

/-- For a vertex `c`, `GetNeighborhood(c)` returns exactly the entries of the outgoing edges
of `c` whose destination differs from the key at `vertexes.begin()`, sorted by weight. -/
theorem GetNeighborhood_of_begin (less : Customer → Customer → Bool) (g : Graph)
    (c k : Customer) (it : Vertex) (h : mapFind less g.vertexes c = some (k, it)) :
    ∃ (depot : Customer) (mm : List (Int × Customer)),
      g.depot = some depot ∧
      g.GetNeighborhood less c = .returned mm ∧
      mm.Perm ((it.edges.filter (fun e => e.1.ne depot)).map (fun e => (e.2.weight, e.1))) ∧
      mm.Pairwise (fun p q => p.1 ≤ q.1) ∧
      ∀ p ∈ mm, p.2.name ≠ depot.name := by
  rcases hv : g.vertexes with _ | ⟨⟨depot, dv⟩, rest⟩
  · rw [hv] at h
    simp [mapFind] at h
  · have hperm := foldl_emplace_perm
      ((it.edges.filter (fun e => e.1.ne depot)).map (fun e => (e.2.weight, e.1))) []
    refine ⟨depot, _, by simp [Graph.depot, hv], ?_, by simpa using hperm, ?_, ?_⟩
    · simp only [Graph.GetNeighborhood, h]
      rw [hv]
      simp only [List.head?_cons, Vertex.GetEdges, foldl_emplace_entries_filter]
    · exact foldl_emplace_sorted _ [] List.Pairwise.nil
    · intro p hp
      have hp2 := hperm.subset hp
      simp only [List.nil_append, List.mem_map, List.mem_filter] at hp2
      obtain ⟨e, ⟨_, hne⟩, rfl⟩ := hp2
      simpa [Customer.ne] using hne

/-! ### `sortV0`, `GetNeighborhood`, `GetCosts` -/

/-- C5, as stated, fails: with vertices inserted in the order a, c, b and two edges of weight
5 from a, `sortV0` lists b before c although c was inserted first; and on the empty graph
`sortV0` dereferences `vertexes.begin()` with nothing to return. -/
theorem sortV0_insertion_order_counterexample :
    Graph.sortV0 Customer.lessByName
        (Graph.build Customer.lessByName
          [.insertVertex (cust "a"), .insertVertex (cust "c"), .insertVertex (cust "b"),
            .insertEdge (cust "a") (cust "c") 5, .insertEdge (cust "a") (cust "b") 5]) =
      .returned [(0, cust "a"), (5, cust "b"), (5, cust "c")] ∧
    insertedCustomers
        [.insertVertex (cust "a"), .insertVertex (cust "c"), .insertVertex (cust "b"),
          .insertEdge (cust "a") (cust "c") 5, .insertEdge (cust "a") (cust "b") 5] =
      [cust "a", cust "c", cust "b"] ∧
    ¬ List.Sublist [cust "b", cust "c"] [cust "a", cust "c", cust "b"] ∧
    Graph.sortV0 Customer.lessByName ⟨[]⟩ = .undefined := by
  refine ⟨by decide, by decide, by decide, by decide⟩

/-- C5, amended: take a graph built by the mutators whose first inserted vertex, the depot,
is the key at `vertexes.begin()`, and whose depot has only edges of weight >= 0. Then
`sortV0` returns the depot at cost 0 first, together with one entry per outgoing edge of the
depot and nothing else, in ascending order of weight; entries of equal weight keep the order
of the depot's edge map, which is the ascending key order of the destinations. -/
theorem sortV0_order (less : Customer → Customer → Bool) (hirr : ∀ a, less a a = false)
    (ops : List GraphOp) (d : Customer) (v : Vertex) (rest : List (Customer × Vertex))
    (_hfirst : (insertedCustomers ops).head? = some d)
    (hg : (Graph.build less ops).vertexes = (d, v) :: rest)
    (hw : ∀ e ∈ v.edges, 0 ≤ e.2.weight) :
    ∃ mm : List (Int × Customer),
      (Graph.build less ops).sortV0 less = .returned mm ∧
      mm.head? = some (0, d) ∧
      mm.Perm ((0, d) :: v.entries) ∧
      mm.Pairwise (fun p q => p.1 ≤ q.1) ∧
      (∀ w : Int, mm.filter (fun p => decide (p.1 = w)) =
        ((0, d) :: v.entries).filter (fun p => decide (p.1 = w))) ∧
      ((∀ a b c, less a b = true → less b c = true → less a c = true) →
        v.edges.Pairwise (fun a b => less a.1 b.1 = true)) := by
  have hfind : mapFind less (Graph.build less ops).vertexes d = some (d, v) := by
    rw [hg]
    exact mapFind_head less hirr (d, v) rest
  refine ⟨v.entries.foldl emplace [(0, d)], ?_, ?_, ?_, ?_, ?_, ?_⟩
  · simp only [Graph.sortV0, hg, List.head?_cons]
    rw [← hg, hfind]
    simp only [Vertex.GetEdges, foldl_emplace_entries, Vertex.entries, emplace]
  · apply foldl_emplace_head v.entries (0, d) _ [(0, d)] rfl
    intro e he
    simp only [Vertex.entries, List.mem_map] at he
    obtain ⟨x, hx, rfl⟩ := he
    exact hw x hx
  · exact foldl_emplace_perm v.entries [(0, d)]
  · exact foldl_emplace_sorted v.entries [(0, d)] (List.pairwise_singleton _ _)
  · intro w
    rw [foldl_emplace_filter v.entries w [(0, d)] (List.pairwise_singleton _ _)]
    rw [← List.filter_append]
    rfl
  · intro htrans
    have hmem : (d, v) ∈ (Graph.build less ops).vertexes := by
      rw [hg]
      exact List.mem_cons_self _ _
    exact build_edges_sorted less htrans ops (d, v) hmem

theorem sortV0_order_witness :
    (∀ a, Customer.lessByName a a = false) ∧
    (insertedCustomers
        [.insertVertex (cust "a"), .insertVertex (cust "c"), .insertVertex (cust "b"),
          .insertEdge (cust "a") (cust "c") 5, .insertEdge (cust "a") (cust "b") 5]).head? =
      some (cust "a") ∧
    (Graph.build Customer.lessByName
        [.insertVertex (cust "a"), .insertVertex (cust "c"), .insertVertex (cust "b"),
          .insertEdge (cust "a") (cust "c") 5, .insertEdge (cust "a") (cust "b") 5]).vertexes =
      [(cust "a", ⟨[(cust "b", ⟨5⟩), (cust "c", ⟨5⟩)]⟩), (cust "b", ⟨[]⟩), (cust "c", ⟨[]⟩)] ∧
    ∃ mm : List (Int × Customer),
      Graph.sortV0 Customer.lessByName
          (Graph.build Customer.lessByName
            [.insertVertex (cust "a"), .insertVertex (cust "c"), .insertVertex (cust "b"),
              .insertEdge (cust "a") (cust "c") 5, .insertEdge (cust "a") (cust "b") 5]) =
        .returned mm ∧ mm.head? = some (0, cust "a") := by
  refine ⟨lessByName_irrefl, by decide, by decide, ?_⟩
  obtain ⟨mm, h1, h2, _⟩ := sortV0_order Customer.lessByName lessByName_irrefl
    [.insertVertex (cust "a"), .insertVertex (cust "c"), .insertVertex (cust "b"),
      .insertEdge (cust "a") (cust "c") 5, .insertEdge (cust "a") (cust "b") 5]
    (cust "a") ⟨[(cust "b", ⟨5⟩), (cust "c", ⟨5⟩)]⟩ [(cust "b", ⟨[]⟩), (cust "c", ⟨[]⟩)]
    (by decide) (by decide) (by decide)
  exact ⟨mm, h1, h2⟩

/-- C6 fails on the code: with the vertices inserted in the order depot, c1, c2, the key at
`vertexes.begin()` is c1, not the depot, so `GetNeighborhood(c2)` returns the edge to the
depot and drops the edge to the customer c1. -/
theorem GetNeighborhood_lists_depot :
    (insertedCustomers
        [.insertVertex (cust "depot"), .insertVertex (cust "c1"), .insertVertex (cust "c2"),
          .insertEdge (cust "c2") (cust "depot") 7, .insertEdge (cust "c2") (cust "c1") 3]).head? =
      some (cust "depot") ∧
    mapFind Customer.lessByName
        (Graph.build Customer.lessByName
          [.insertVertex (cust "depot"), .insertVertex (cust "c1"), .insertVertex (cust "c2"),
            .insertEdge (cust "c2") (cust "depot") 7,
            .insertEdge (cust "c2") (cust "c1") 3]).vertexes
        (cust "c2") = some (cust "c2", ⟨[(cust "c1", ⟨3⟩), (cust "depot", ⟨7⟩)]⟩) ∧
    Graph.GetNeighborhood Customer.lessByName
        (Graph.build Customer.lessByName
          [.insertVertex (cust "depot"), .insertVertex (cust "c1"), .insertVertex (cust "c2"),
            .insertEdge (cust "c2") (cust "depot") 7,
            .insertEdge (cust "c2") (cust "c1") 3])
        (cust "c2") = .returned [(7, cust "depot")] := by
  refine ⟨by decide, by decide, by decide⟩

/-- C7, as stated, fails: `GetCosts` from a customer that is not a vertex, `GetCosts` along a
missing edge and `GetNeighborhood` of a customer that is not a vertex dereference a
past-the-end iterator and report nothing; and `GetCosts` returns the weight of an existing
edge whose destination is not a vertex. -/
theorem lookup_not_found_counterexample :
    mapFind Customer.lessByName
      (Graph.build Customer.lessByName [.insertVertex (cust "a")]).vertexes (cust "z") = none ∧
    Graph.GetCosts Customer.lessByName
      (Graph.build Customer.lessByName [.insertVertex (cust "a")]) (cust "z") (cust "a") =
        .undefined ∧
    Graph.GetCosts Customer.lessByName
      (Graph.build Customer.lessByName [.insertVertex (cust "a"), .insertVertex (cust "b")])
      (cust "a") (cust "b") = .undefined ∧
    Graph.GetNeighborhood Customer.lessByName
      (Graph.build Customer.lessByName [.insertVertex (cust "a")]) (cust "z") = .undefined ∧
    mapFind Customer.lessByName
      (Graph.build Customer.lessByName
        [.insertVertex (cust "a"), .insertEdge (cust "a") (cust "b") 3]).vertexes
      (cust "b") = none ∧
    Graph.GetCosts Customer.lessByName
      (Graph.build Customer.lessByName
        [.insertVertex (cust "a"), .insertEdge (cust "a") (cust "b") 3])
      (cust "a") (cust "b") = .returned (cust "a", 3) := by
  refine ⟨by decide, by decide, by decide, by decide, by decide, by decide⟩

/-- C7, amended: `GetCosts(from, to)` returns `from` and the weight of the edge from->to
when `from` is a vertex that has an edge to `to`. Neither `GetCosts` nor `GetNeighborhood`
checks the iterator that `find` returns, and neither ever reports a failure: when `from` is
not a vertex or has no edge to `to`, and when `c` is not a vertex, a past-the-end iterator is
dereferenced. Both are const member functions: they yield a result and no new graph. -/
theorem lookups_unchecked (less : Customer → Customer → Bool) (g : Graph) :
    (∀ (src dst k k2 : Customer) (it : Vertex) (e : Edge),
      mapFind less g.vertexes src = some (k, it) → mapFind less it.edges dst = some (k2, e) →
        g.GetCosts less src dst = .returned (src, e.weight)) ∧
    (∀ src dst : Customer, mapFind less g.vertexes src = none →
      g.GetCosts less src dst = .undefined) ∧
    (∀ (src dst k : Customer) (it : Vertex),
      mapFind less g.vertexes src = some (k, it) → mapFind less it.edges dst = none →
        g.GetCosts less src dst = .undefined) ∧
    (∀ c : Customer, mapFind less g.vertexes c = none →
      g.GetNeighborhood less c = .undefined) ∧
    (∀ (src dst : Customer) (msg : String), g.GetCosts less src dst ≠ .threw msg) ∧
    (∀ (c : Customer) (msg : String), g.GetNeighborhood less c ≠ .threw msg) := by
  refine ⟨?_, ?_, ?_, ?_, ?_, ?_⟩
  · intro src dst k k2 it e h1 h2
    simp [Graph.GetCosts, h1, Vertex.GetEdges, h2]
  · intro src dst h1
    simp [Graph.GetCosts, h1]
  · intro src dst k it h1 h2
    simp [Graph.GetCosts, h1, Vertex.GetEdges, h2]
  · intro c h1
    simp [Graph.GetNeighborhood, h1]
  · intro src dst msg
    simp only [Graph.GetCosts]
    split
    · simp
    · split <;> simp
  · intro c msg
    simp only [Graph.GetNeighborhood]
    split
    · simp
    · split <;> simp

/-! ### `InsertEdge` and the depot -/

/-- C8: `InsertEdge(from, to, w)` leaves the graph as it is when `from` and `to` have the
same name or `from` is not a vertex; and, the map keys being equivalent only for customers
of the same name, no sequence of `InsertVertex`, `InsertEdge` and `RemoveEdge` calls from
the empty graph yields a vertex with an edge to a customer of its own name. -/
theorem InsertEdge_frame (less : Customer → Customer → Bool)
    (hname : ∀ a b, less a b = false → less b a = false → a.name = b.name) :
    (∀ (g : Graph) (node new_edge : Customer) (w : Int),
      node.name = new_edge.name ∨ mapFind less g.vertexes node = none →
        g.InsertEdge less node new_edge w = g) ∧
    (∀ ops : List GraphOp, ∀ p ∈ (Graph.build less ops).vertexes,
      ∀ e ∈ p.2.edges, e.1.name ≠ p.1.name) := by
  refine ⟨?_, fun ops => build_no_self_edge less hname ops⟩
  intro g node new_edge w h
  rcases h with h | h
  · simp [Graph.InsertEdge, h]
  · simp [Graph.InsertEdge, h]

theorem InsertEdge_frame_witness :
    (∀ a b, Customer.lessByName a b = false → Customer.lessByName b a = false →
      a.name = b.name) ∧
    Graph.InsertEdge Customer.lessByName
        (Graph.build Customer.lessByName [.insertVertex (cust "a")]) (cust "a") (cust "a") 4 =
      Graph.build Customer.lessByName [.insertVertex (cust "a")] :=
  ⟨lessByName_equiv,
    (InsertEdge_frame Customer.lessByName lessByName_equiv).1 _ _ _ _ (Or.inl rfl)⟩

/-- C9 fails on the code: after `InsertVertex(b)` then `InsertVertex(a)`, the key at
`vertexes.begin()` is a, the second customer inserted; `sortV0` returns a at cost 0 and the
first inserted vertex b as a customer at cost 7, and `GetNeighborhood(b)` drops the edge
to a as the edge to the depot. -/
theorem depot_is_least_key :
    (Graph.build Customer.lessByName
      [.insertVertex (cust "b"), .insertVertex (cust "a"),
        .insertEdge (cust "b") (cust "a") 7, .insertEdge (cust "a") (cust "b") 7]).depot =
      some (cust "a") ∧
    Graph.sortV0 Customer.lessByName
      (Graph.build Customer.lessByName
        [.insertVertex (cust "b"), .insertVertex (cust "a"),
          .insertEdge (cust "b") (cust "a") 7, .insertEdge (cust "a") (cust "b") 7]) =
      .returned [(0, cust "a"), (7, cust "b")] ∧
    Graph.GetNeighborhood Customer.lessByName
      (Graph.build Customer.lessByName
        [.insertVertex (cust "b"), .insertVertex (cust "a"),
          .insertEdge (cust "b") (cust "a") 7, .insertEdge (cust "a") (cust "b") 7])
      (cust "b") = .returned [] := by
  refine ⟨by decide, by decide, by decide⟩

end VRPTabu
